import Mathlib

/-!
Shallow embedding of the batch translation queue and scheduler of the
Translation-studio repository (src/batch_processor.py, src/batch_threads.py,
src/simple_batch.py), together with theorems settling the specification
claims about them.

Modelling conventions:
* Python strings are `String`, Python ints are `Int` (progress values) or
  `Nat` (counts and lengths).
* `datetime.now()` readings are oracle parameters (`ts : String`) supplied at
  each call; `TranslationJob.job_id` is `str(datetime.now().timestamp())`, so
  the id of a job is the clock reading taken at its creation.
* `os.path.exists` is an oracle `fs : String → Bool`.
* The dict `active_jobs : Dict[str, TranslationJob]` is modelled by its key
  set (`Finset String`); the values are recoverable from `jobs` and only the
  key count and key membership are ever consulted by the code under study.
* `completed_jobs` / `failed_jobs` store, in Python, aliases of the mutable
  job records; only their lengths and the identity of their entries matter to
  the claims, so they are modelled as lists of job ids in append order.
* Raising (`FileNotFoundError`) is modelled with `Except String`.
-/

namespace TranslationStudio

/-- Supported translation engines (class TranslationEngineType). -/
inductive TranslationEngineType where
  | whisper
  | argos
  | chatgpt
deriving DecidableEq, Repr

/-- Status of a translation job (class TranslationStatus). -/
inductive TranslationStatus where
  | pending
  | running
  | completed
  | failed
  | skipped
deriving DecidableEq, Repr

/-- A status is terminal when it is completed, failed or skipped. -/
def TranslationStatus.isTerminal : TranslationStatus → Bool
  | .completed => true
  | .failed => true
  | .skipped => true
  | _ => false

/-- Single file translation job (dataclass TranslationJob); the callback-holding
`config` dict is behaviour, not data, and is modelled at the worker level. -/
structure TranslationJob where
  file_path : String
  engine : TranslationEngineType
  job_id : String
  status : TranslationStatus
  progress : Int
  message : String
  output_path : Option String
  created_at : String
  started_at : Option String
  completed_at : Option String
deriving DecidableEq, Repr

/-- The job built by `add_job`: `TranslationJob(file_path=..., engine=..., config=...)`
with the dataclass defaults; `ts` is the `datetime.now()` reading, which supplies
both `job_id` (`timestamp()`) and `created_at` (`isoformat()`). -/
def mkJob (file_path : String) (engine : TranslationEngineType) (ts : String) :
    TranslationJob :=
  { file_path := file_path
    engine := engine
    job_id := ts
    status := .pending
    progress := 0
    message := ""
    output_path := none
    created_at := ts
    started_at := none
    completed_at := none }

/-- State of class BatchTranslationQueue. -/
structure BatchTranslationQueue where
  max_parallel_jobs : Nat
  jobs : List TranslationJob
  active_jobs : Finset String
  completed_jobs : List String
  failed_jobs : List String
deriving DecidableEq

/-- A freshly constructed queue (`BatchTranslationQueue(max_parallel_jobs)`). -/
def emptyQueue (max_parallel_jobs : Nat) : BatchTranslationQueue :=
  { max_parallel_jobs := max_parallel_jobs
    jobs := []
    active_jobs := ∅
    completed_jobs := []
    failed_jobs := [] }

/-- First job in the list whose `job_id` matches; the `for job in self.jobs:
if job.job_id == job_id: ...; break` pattern used by every mutation. -/
def firstMatch (jobs : List TranslationJob) (job_id : String) :
    Option TranslationJob :=
  jobs.find? (fun j => decide (j.job_id = job_id))

/-- Apply `f` to the first job whose `job_id` matches, leaving the rest alone
(the mutation performed inside the `for ... break` loop). -/
def updateFirst (f : TranslationJob → TranslationJob) (job_id : String) :
    List TranslationJob → List TranslationJob
  | [] => []
  | j :: rest =>
      if j.job_id = job_id then f j :: rest else j :: updateFirst f job_id rest

/-- Number of jobs in the list carrying the given status. -/
def countStatus (s : TranslationStatus) (jobs : List TranslationJob) : Nat :=
  jobs.countP (fun j => decide (j.status = s))

/-- BatchTranslationQueue.add_job: raises FileNotFoundError when the path does
not exist, otherwise appends a fresh pending job and returns it. -/
def add_job (fs : String → Bool) (q : BatchTranslationQueue) (file_path : String)
    (engine : TranslationEngineType) (ts : String) :
    Except String (BatchTranslationQueue × TranslationJob) :=
  if fs file_path then
    Except.ok ({ q with jobs := q.jobs ++ [mkJob file_path engine ts] },
               mkJob file_path engine ts)
  else
    Except.error ("File not found: " ++ file_path)

/-- BatchTranslationQueue.add_multiple_jobs: adds each path in turn, catching
FileNotFoundError and continuing with the remaining paths.  Each pair carries
the path and the clock reading used if the add succeeds. -/
def add_multiple_jobs (fs : String → Bool) (engine : TranslationEngineType) :
    BatchTranslationQueue → List (String × String) →
    BatchTranslationQueue × List TranslationJob
  | q, [] => (q, [])
  | q, pt :: rest =>
      match add_job fs q pt.1 engine pt.2 with
      | Except.ok qj =>
          let r := add_multiple_jobs fs engine qj.1 rest
          (r.1, qj.2 :: r.2)
      | Except.error _ => add_multiple_jobs fs engine q rest

/-- BatchTranslationQueue.get_next_job: next pending job if queue capacity
allows, judged by the size of the active-jobs dict. -/
def get_next_job (q : BatchTranslationQueue) : Option TranslationJob :=
  if q.active_jobs.card < q.max_parallel_jobs then
    q.jobs.find? (fun j => decide (j.status = TranslationStatus.pending))
  else none

/-- BatchTranslationQueue.mark_started: sets the first matching job to
running, stamps `started_at`, and records it in the active dict.  There is no
guard on the job's current status. -/
def mark_started (q : BatchTranslationQueue) (job_id ts : String) :
    BatchTranslationQueue :=
  match firstMatch q.jobs job_id with
  | none => q
  | some _ =>
      { q with
        jobs := updateFirst
          (fun j => { j with status := .running, started_at := some ts })
          job_id q.jobs
        active_jobs := insert job_id q.active_jobs }

/-- BatchTranslationQueue.update_progress: clamps into [0, 100]; the message
is overwritten only when the supplied string is truthy (non-empty). -/
def update_progress (q : BatchTranslationQueue) (job_id : String) (progress : Int)
    (message : String) : BatchTranslationQueue :=
  { q with
    jobs := updateFirst
      (fun j => { j with
        progress := min 100 (max 0 progress)
        message := if message = "" then j.message else message })
      job_id q.jobs }

/-- BatchTranslationQueue.mark_completed: unconditional status write, progress
forced to 100, `output_path` overwritten (even with none), conditional message,
id appended to the completed history, key popped from the active dict. -/
def mark_completed (q : BatchTranslationQueue) (job_id : String)
    (output_path : Option String) (message : String) (ts : String) :
    BatchTranslationQueue :=
  match firstMatch q.jobs job_id with
  | none => q
  | some _ =>
      { q with
        jobs := updateFirst
          (fun j => { j with
            status := .completed
            progress := 100
            completed_at := some ts
            output_path := output_path
            message := if message = "" then j.message else message })
          job_id q.jobs
        completed_jobs := q.completed_jobs ++ [job_id]
        active_jobs := q.active_jobs.erase job_id }

/-- BatchTranslationQueue.mark_failed: unconditional status write, conditional
message, id appended to the failed history, key popped from the active dict. -/
def mark_failed (q : BatchTranslationQueue) (job_id : String)
    (error_message : String) (ts : String) : BatchTranslationQueue :=
  match firstMatch q.jobs job_id with
  | none => q
  | some _ =>
      { q with
        jobs := updateFirst
          (fun j => { j with
            status := .failed
            completed_at := some ts
            message := if error_message = "" then j.message else error_message })
          job_id q.jobs
        failed_jobs := q.failed_jobs ++ [job_id]
        active_jobs := q.active_jobs.erase job_id }

/-- BatchTranslationQueue.mark_skipped: like mark_failed but no history list
receives the job. -/
def mark_skipped (q : BatchTranslationQueue) (job_id : String) (reason : String)
    (ts : String) : BatchTranslationQueue :=
  match firstMatch q.jobs job_id with
  | none => q
  | some _ =>
      { q with
        jobs := updateFirst
          (fun j => { j with
            status := .skipped
            completed_at := some ts
            message := if reason = "" then j.message else reason })
          job_id q.jobs
        active_jobs := q.active_jobs.erase job_id }

/-- BatchTranslationQueue.clear_completed. -/
def clear_completed (q : BatchTranslationQueue) : BatchTranslationQueue :=
  { q with completed_jobs := [], failed_jobs := [] }

/-- The dictionary returned by BatchTranslationQueue.get_statistics. -/
structure QueueStatistics where
  total_jobs : Nat
  pending : Nat
  active : Nat
  completed : Nat
  failed : Nat
  capacity : Nat
deriving DecidableEq, Repr

/-- BatchTranslationQueue.get_statistics: note there is no skipped field. -/
def get_statistics (q : BatchTranslationQueue) : QueueStatistics :=
  { total_jobs := q.jobs.length
    pending := countStatus .pending q.jobs
    active := q.active_jobs.card
    completed := q.completed_jobs.length
    failed := q.failed_jobs.length
    capacity := q.max_parallel_jobs }

/-! ## Execution units (src/batch_threads.py) -/

/-- A callback invocation made by the external executor through the handles
installed in the job's config (`_on_progress`, `_on_completed`, `_on_failed`). -/
inductive CbEvent where
  | onProgress (p : Int) (msg : String)
  | onCompleted (out : Option String)
  | onFailed (msg : String)
deriving DecidableEq, Repr

/-- How the single executor invocation ends: a boolean return or an exception. -/
inductive ExecResult where
  | ret (success : Bool)
  | exn (msg : String)
deriving DecidableEq, Repr

/-- One executor invocation as observed by the worker: the callbacks it invoked,
in order, followed by how it finished. -/
structure ExecOutcome where
  events : List CbEvent
  result : ExecResult
deriving DecidableEq, Repr

/-- Signals of SingleJobWorker (progress / completed / failed), each carrying
the job id. -/
inductive Sig where
  | progress (job_id : String) (p : Int) (msg : String)
  | completed (job_id : String) (out : String)
  | failed (job_id : String) (msg : String)
deriving DecidableEq, Repr

/-- Signal emitted by one callback proxy of SingleJobWorker.run: `on_completed`
emits `output_path or ""`. -/
def eventSignal (job_id : String) : CbEvent → Sig
  | .onProgress p m => .progress job_id p m
  | .onCompleted out => .completed job_id (out.getD "")
  | .onFailed m => .failed job_id m

/-- SingleJobWorker.run: the signals emitted while bridging one executor
invocation.  A `False` return appends a generic failure signal whether or not
`on_failed` was already invoked; an exception is caught and converted into a
failure signal; a `True` return appends nothing. -/
def workerSignals (job_id : String) (o : ExecOutcome) : List Sig :=
  o.events.map (eventSignal job_id) ++
    match o.result with
    | .ret true => []
    | .ret false => [.failed job_id "Translation failed"]
    | .exn e => [.failed job_id e]

/-- BatchTranslationManager signal handlers `_on_job_progress`,
`_on_job_completed`, `_on_job_failed`: each routes into the corresponding
queue mutation (the handlers are connected with Qt.DirectConnection). -/
def applySignal (ts : String) (q : BatchTranslationQueue) : Sig →
    BatchTranslationQueue
  | .progress id p m => update_progress q id p m
  | .completed id out => mark_completed q id (some out) "" ts
  | .failed id m => mark_failed q id m ts

/-- Deliver a worker's signals to the queue in emission order. -/
def applySignals (ts : String) (q : BatchTranslationQueue) : List Sig →
    BatchTranslationQueue
  | [] => q
  | s :: rest => applySignals ts (applySignal ts q s) rest

/-- BatchTranslationManager.run, sequentialised: repeatedly pull the next
dispatchable job, mark it started, and deliver the signals its worker emits
for the executor outcome chosen by the oracle `f` (direct-connected handlers
run the queue mutations before the worker thread finishes).  The fuel bounds
the number of dispatches of the run being examined. -/
def managerLoop (f : String → ExecOutcome) (ts : String) :
    Nat → BatchTranslationQueue → BatchTranslationQueue
  | 0, q => q
  | fuel + 1, q =>
      match get_next_job q with
      | none => q
      | some j =>
          let q1 := mark_started q j.job_id ts
          let q2 := applySignals ts q1 (workerSignals j.job_id (f j.job_id))
          managerLoop f ts fuel q2

/-- A full manager run over a queue: dispatch until no job is dispatchable
(the fuel `jobs.length + 1` suffices for every terminating run), then take the
final statistics snapshot emitted with all_jobs_completed. -/
def managerRun (f : String → ExecOutcome) (ts : String)
    (q : BatchTranslationQueue) : BatchTranslationQueue :=
  managerLoop f ts (q.jobs.length + 1) q

/-! ## Simplified sequential processor (src/simple_batch.py) -/

/-- Signals of SimpleBatchProcessor. -/
inductive BSig where
  | jobStarted (job_id : String)
  | jobProgress (job_id : String) (p : Int) (msg : String)
  | jobCompleted (job_id : String) (out : String)
  | jobFailed (job_id : String) (msg : String)
  | batchProgress (total completed failed current : Nat)
  | batchFinished (total completed failed : Nat)
deriving DecidableEq, Repr

/-- Recogniser for the batch_finished signal. -/
def BSig.isBatchFinished : BSig → Bool
  | .batchFinished _ _ _ => true
  | _ => false

/-- One callback invocation inside SimpleBatchProcessor.run: `on_progress`
only emits; `on_completed` sets the job's status to completed and emits;
`on_failed` sets the status to failed, emits, and records `error_emitted`.
Returns the updated job, the updated `error_emitted` flag and the signals. -/
def simpleApplyEvent (j : TranslationJob) (errEmitted : Bool) :
    CbEvent → TranslationJob × Bool × List BSig
  | .onProgress p m => (j, errEmitted, [.jobProgress j.job_id p m])
  | .onCompleted out =>
      ({ j with status := .completed }, errEmitted,
       [.jobCompleted j.job_id (out.getD "")])
  | .onFailed m =>
      ({ j with status := .failed }, true, [.jobFailed j.job_id m])

/-- Deliver the executor's callback invocations in order. -/
def simpleApplyEvents : TranslationJob → Bool → List CbEvent →
    TranslationJob × Bool × List BSig
  | j, err, [] => (j, err, [])
  | j, err, e :: rest =>
      let r1 := simpleApplyEvent j err e
      let r2 := simpleApplyEvents r1.1 r1.2.1 rest
      (r2.1, r2.2.1, r1.2.2 ++ r2.2.2)

/-- One loop iteration of SimpleBatchProcessor.run for one job: mark it
running with progress 0, emit job_started, run the executor, then account the
outcome.  Returns the final job, `true` when the completed counter (rather
than the failed counter) is incremented, and the emitted signals. -/
def simpleProcessJob (j : TranslationJob) (o : ExecOutcome) :
    TranslationJob × Bool × List BSig :=
  let j1 : TranslationJob := { j with status := .running, progress := 0 }
  let r := simpleApplyEvents j1 false o.events
  match o.result with
  | .ret true =>
      let j2 := if r.1.status = .completed then r.1
                else { r.1 with status := .completed }
      (j2, true, [BSig.jobStarted j.job_id] ++ r.2.2)
  | .ret false =>
      let j2 : TranslationJob := { r.1 with status := .failed }
      (j2, false,
       [BSig.jobStarted j.job_id] ++ r.2.2 ++
         (if r.2.1 then [] else [BSig.jobFailed j.job_id "Translation failed"]))
  | .exn e =>
      let j2 : TranslationJob := { r.1 with status := .failed }
      (j2, false,
       [BSig.jobStarted j.job_id] ++ r.2.2 ++ [BSig.jobFailed j.job_id e])

/-- The loop of SimpleBatchProcessor.run: processes the remaining jobs with
the per-index outcomes, threading the completed/failed counters and the job
index, and collecting the signals (each iteration ends with batch_progress). -/
def simpleLoop (total : Nat) (outs : Nat → ExecOutcome) :
    List TranslationJob → Nat → Nat → Nat → Nat × Nat × List BSig
  | [], _, c, f => (c, f, [])
  | j :: rest, i, c, f =>
      let r := simpleProcessJob j (outs i)
      let c' := if r.2.1 then c + 1 else c
      let f' := if r.2.1 then f else f + 1
      let tailRun := simpleLoop total outs rest (i + 1) c' f'
      (tailRun.1, tailRun.2.1,
       r.2.2 ++ [BSig.batchProgress total c' f' (i + 1)] ++ tailRun.2.2)

/-- SimpleBatchProcessor.run for an uninterrupted run: the loop over all jobs
followed by the single batch_finished emission from the finally block,
reporting `{total, completed, failed}`. -/
def simpleBatchRun (jobs : List TranslationJob) (outs : Nat → ExecOutcome) :
    Nat × Nat × List BSig :=
  let r := simpleLoop jobs.length outs jobs 0 0 0
  (r.1, r.2.1,
   r.2.2 ++ [BSig.batchFinished jobs.length r.1 r.2.1])

/-! ## Arbitrary sequences of queue operations -/

/-- One call of the queue's public mutation API (the oracle answers for
`os.path.exists` and `datetime.now()` are carried in the operation). -/
inductive QOp where
  | addOp (file_path : String) (engine : TranslationEngineType) (ts : String)
  | startOp (job_id ts : String)
  | progressOp (job_id : String) (p : Int) (msg : String)
  | completeOp (job_id : String) (out : Option String) (msg ts : String)
  | failOp (job_id msg ts : String)
  | skipOp (job_id msg ts : String)
  | clearOp

/-- Apply one operation; an add whose path does not exist raises and leaves
the queue unchanged. -/
def applyOp (fs : String → Bool) (q : BatchTranslationQueue) :
    QOp → BatchTranslationQueue
  | .addOp p eng ts =>
      match add_job fs q p eng ts with
      | Except.ok qj => qj.1
      | Except.error _ => q
  | .startOp id ts => mark_started q id ts
  | .progressOp id p m => update_progress q id p m
  | .completeOp id out m ts => mark_completed q id out m ts
  | .failOp id m ts => mark_failed q id m ts
  | .skipOp id m ts => mark_skipped q id m ts
  | .clearOp => clear_completed q

/-- Run a sequence of queue operations. -/
def runOps (fs : String → Bool) : BatchTranslationQueue → List QOp →
    BatchTranslationQueue
  | q, [] => q
  | q, op :: rest => runOps fs (applyOp fs q op) rest

/-! ## The scheduler's step relation -/

/-- One step of the scheduler against the queue: dispatching the next
dispatchable job (BatchTranslationManager.run, the inner while), or a
direct-connected worker signal reaching a queue mutation (reaping a completed
or failed unit, or a progress report). -/
inductive SchedStep : BatchTranslationQueue → BatchTranslationQueue → Prop
  | dispatch (q : BatchTranslationQueue) (j : TranslationJob) (ts : String)
      (h : get_next_job q = some j) :
      SchedStep q (mark_started q j.job_id ts)
  | reapCompleted (q : BatchTranslationQueue) (id : String)
      (out : Option String) (msg ts : String) :
      SchedStep q (mark_completed q id out msg ts)
  | reapFailed (q : BatchTranslationQueue) (id msg ts : String) :
      SchedStep q (mark_failed q id msg ts)
  | progressStep (q : BatchTranslationQueue) (id : String) (p : Int)
      (msg : String) :
      SchedStep q (update_progress q id p msg)

/-- Reflexive-transitive closure of the scheduler step. -/
inductive SchedReach : BatchTranslationQueue → BatchTranslationQueue → Prop
  | refl (q : BatchTranslationQueue) : SchedReach q q
  | tail {a b c : BatchTranslationQueue} :
      SchedReach a b → SchedStep b c → SchedReach a c

/-- A queue as it stands when the scheduler starts: some number of added jobs,
all still pending, nothing active and empty histories. -/
def InitialQueue (q : BatchTranslationQueue) : Prop :=
  (∀ j ∈ q.jobs, j.status = TranslationStatus.pending) ∧
    q.active_jobs = ∅ ∧ q.completed_jobs = [] ∧ q.failed_jobs = []

/-! ## Helper lemmas about the list-update pattern -/

theorem updateFirst_of_no_match (f : TranslationJob → TranslationJob)
    (job_id : String) (jobs : List TranslationJob)
    (h : ∀ j ∈ jobs, j.job_id ≠ job_id) : updateFirst f job_id jobs = jobs := by
  induction jobs with
  | nil => rfl
  | cons j rest ih =>
      simp only [updateFirst]
      rw [if_neg (h j (by simp))]
      rw [ih (fun x hx => h x (by simp [hx]))]

theorem firstMatch_eq_none_iff (jobs : List TranslationJob) (job_id : String) :
    firstMatch jobs job_id = none ↔ ∀ j ∈ jobs, j.job_id ≠ job_id := by
  simp [firstMatch, List.find?_eq_none]

theorem firstMatch_id (jobs : List TranslationJob) (job_id : String)
    (j : TranslationJob) (h : firstMatch jobs job_id = some j) :
    j.job_id = job_id := by
  have := List.find?_some h
  simpa using this

theorem firstMatch_mem (jobs : List TranslationJob) (job_id : String)
    (j : TranslationJob) (h : firstMatch jobs job_id = some j) : j ∈ jobs :=
  List.mem_of_find?_eq_some h

theorem firstMatch_cons_pos (j : TranslationJob) (rest : List TranslationJob)
    (job_id : String) (h : j.job_id = job_id) :
    firstMatch (j :: rest) job_id = some j := by
  simp only [firstMatch]
  exact List.find?_cons_of_pos _ (by simpa using h)

theorem firstMatch_cons_neg (j : TranslationJob) (rest : List TranslationJob)
    (job_id : String) (h : ¬ j.job_id = job_id) :
    firstMatch (j :: rest) job_id = firstMatch rest job_id := by
  simp only [firstMatch]
  exact List.find?_cons_of_neg _ (by simpa using h)

theorem countP_updateFirst (f : TranslationJob → TranslationJob)
    (p : TranslationJob → Bool) (job_id : String) (jobs : List TranslationJob)
    (j₀ : TranslationJob) (h : firstMatch jobs job_id = some j₀) :
    (updateFirst f job_id jobs).countP p + (if p j₀ then 1 else 0) =
      jobs.countP p + (if p (f j₀) then 1 else 0) := by
  induction jobs with
  | nil => simp [firstMatch] at h
  | cons j rest ih =>
      by_cases hj : j.job_id = job_id
      · have hjj : j = j₀ := by
          rw [firstMatch_cons_pos j rest job_id hj] at h
          exact (Option.some.injEq _ _).mp h
        subst hjj
        simp only [updateFirst, if_pos hj, List.countP_cons]
        omega
      · have h' : firstMatch rest job_id = some j₀ := by
          rwa [firstMatch_cons_neg j rest job_id hj] at h
        simp only [updateFirst, if_neg hj, List.countP_cons]
        have := ih h'
        omega

theorem firstMatch_updateFirst_self (f : TranslationJob → TranslationJob)
    (job_id : String) (jobs : List TranslationJob) (j₀ : TranslationJob)
    (h : firstMatch jobs job_id = some j₀)
    (hf : (f j₀).job_id = job_id) :
    firstMatch (updateFirst f job_id jobs) job_id = some (f j₀) := by
  induction jobs with
  | nil => simp [firstMatch] at h
  | cons j rest ih =>
      by_cases hj : j.job_id = job_id
      · have hjj : j = j₀ := by
          rw [firstMatch_cons_pos j rest job_id hj] at h
          exact (Option.some.injEq _ _).mp h
        subst hjj
        simp only [updateFirst, if_pos hj]
        exact firstMatch_cons_pos _ _ _ hf
      · have h' : firstMatch rest job_id = some j₀ := by
          rwa [firstMatch_cons_neg j rest job_id hj] at h
        simp only [updateFirst, if_neg hj]
        rw [firstMatch_cons_neg j _ job_id hj]
        exact ih h'

theorem firstMatch_updateFirst_ne (f : TranslationJob → TranslationJob)
    (job_id other : String) (jobs : List TranslationJob)
    (hne : other ≠ job_id)
    (hf : ∀ j, (f j).job_id = j.job_id) :
    firstMatch (updateFirst f job_id jobs) other = firstMatch jobs other := by
  induction jobs with
  | nil => rfl
  | cons j rest ih =>
      by_cases hj : j.job_id = job_id
      · have hjo : ¬ (f j).job_id = other := by
          rw [hf j, hj]; exact fun hx => hne hx.symm
        have hjo' : ¬ j.job_id = other := by
          rw [hj]; exact fun hx => hne hx.symm
        simp only [updateFirst, if_pos hj]
        rw [firstMatch_cons_neg _ _ _ hjo, firstMatch_cons_neg _ _ _ hjo']
      · simp only [updateFirst, if_neg hj]
        by_cases hjo : j.job_id = other
        · rw [firstMatch_cons_pos _ _ _ hjo, firstMatch_cons_pos _ _ _ hjo]
        · rw [firstMatch_cons_neg _ _ _ hjo, firstMatch_cons_neg _ _ _ hjo]
          exact ih

theorem mem_updateFirst (f : TranslationJob → TranslationJob) (job_id : String)
    (jobs : List TranslationJob) (j' : TranslationJob)
    (h : j' ∈ updateFirst f job_id jobs) :
    j' ∈ jobs ∨ ∃ j ∈ jobs, j' = f j := by
  induction jobs with
  | nil => simp [updateFirst] at h
  | cons j rest ih =>
      by_cases hj : j.job_id = job_id
      · simp only [updateFirst, if_pos hj, List.mem_cons] at h
        rcases h with h | h
        · exact Or.inr ⟨j, by simp, h⟩
        · exact Or.inl (by simp [h])
      · simp only [updateFirst, if_neg hj, List.mem_cons] at h
        rcases h with h | h
        · exact Or.inl (by simp [h])
        · rcases ih h with h' | ⟨x, hx, hx'⟩
          · exact Or.inl (by simp [h'])
          · exact Or.inr ⟨x, by simp [hx], hx'⟩

theorem length_updateFirst (f : TranslationJob → TranslationJob)
    (job_id : String) (jobs : List TranslationJob) :
    (updateFirst f job_id jobs).length = jobs.length := by
  induction jobs with
  | nil => rfl
  | cons j rest ih =>
      by_cases hj : j.job_id = job_id
      · simp [updateFirst, if_pos hj]
      · simp [updateFirst, if_neg hj, ih]

theorem map_message_updateFirst (f : TranslationJob → TranslationJob)
    (job_id : String) (jobs : List TranslationJob)
    (hf : ∀ j, (f j).message = j.message) :
    (updateFirst f job_id jobs).map (fun j => j.message) =
      jobs.map (fun j => j.message) := by
  induction jobs with
  | nil => rfl
  | cons j rest ih =>
      by_cases hj : j.job_id = job_id
      · simp [updateFirst, if_pos hj, hf]
      · simp [updateFirst, if_neg hj, ih]

theorem find?_eq_some_split (p : TranslationJob → Bool)
    (l : List TranslationJob) (a : TranslationJob) (h : l.find? p = some a) :
    ∃ pre post, l = pre ++ a :: post ∧ (∀ x ∈ pre, p x = false) ∧ p a = true := by
  induction l with
  | nil => simp at h
  | cons j rest ih =>
      by_cases hj : p j
      · rw [List.find?_cons_of_pos _ hj] at h
        refine ⟨[], rest, ?_, by simp, ?_⟩
        · simp [(Option.some.injEq _ _).mp h]
        · rw [(Option.some.injEq _ _).mp h] at hj; exact hj
      · rw [List.find?_cons_of_neg _ hj] at h
        rcases ih h with ⟨pre, post, hsplit, hpre, ha⟩
        refine ⟨j :: pre, post, by simp [hsplit], ?_, ha⟩
        intro x hx
        rcases List.mem_cons.mp hx with hx | hx
        · rw [hx]; simpa using hj
        · exact hpre x hx

/-! ## The scheduler invariant -/

/-- Number of running jobs carrying a given id. -/
def runCountId (jobs : List TranslationJob) (x : String) : Nat :=
  jobs.countP (fun j => decide (j.job_id = x ∧ j.status = TranslationStatus.running))

/-- Invariant tying the active-jobs dict to the job statuses: every active id
fronts a running job, each id has a running job exactly when it is active, the
running count equals the dict size, and the dict size respects capacity. -/
def SchedInv (q : BatchTranslationQueue) : Prop :=
  (∀ x ∈ q.active_jobs,
      (firstMatch q.jobs x).map (fun j => j.status) =
        some TranslationStatus.running) ∧
  (∀ x, runCountId q.jobs x = if x ∈ q.active_jobs then 1 else 0) ∧
  countStatus .running q.jobs = q.active_jobs.card ∧
  q.active_jobs.card ≤ q.max_parallel_jobs

theorem runCountId_updateFirst (f : TranslationJob → TranslationJob)
    (x y : String) (jobs : List TranslationJob) (j₀ : TranslationJob)
    (h : firstMatch jobs x = some j₀) :
    runCountId (updateFirst f x jobs) y +
        (if j₀.job_id = y ∧ j₀.status = TranslationStatus.running then 1 else 0) =
      runCountId jobs y +
        (if (f j₀).job_id = y ∧ (f j₀).status = TranslationStatus.running
         then 1 else 0) := by
  have hcnt := countP_updateFirst f
    (fun j => decide (j.job_id = y ∧ j.status = TranslationStatus.running))
    x jobs j₀ h
  simpa [runCountId, decide_eq_true_eq] using hcnt

theorem countStatus_updateFirst (s : TranslationStatus)
    (f : TranslationJob → TranslationJob) (x : String)
    (jobs : List TranslationJob) (j₀ : TranslationJob)
    (h : firstMatch jobs x = some j₀) :
    countStatus s (updateFirst f x jobs) + (if j₀.status = s then 1 else 0) =
      countStatus s jobs + (if (f j₀).status = s then 1 else 0) := by
  have hcnt := countP_updateFirst f (fun j => decide (j.status = s)) x jobs j₀ h
  simpa [countStatus, decide_eq_true_eq] using hcnt

theorem runCountId_pos_elem (jobs : List TranslationJob) (x : String)
    (j : TranslationJob) (hj : j ∈ jobs) (hid : j.job_id = x)
    (hrun : j.status = TranslationStatus.running) : 0 < runCountId jobs x := by
  rw [runCountId, List.countP_pos_iff]
  exact ⟨j, hj, by simp [hid, hrun]⟩

theorem schedInv_mark_started (q : BatchTranslationQueue) (x ts : String)
    (hinv : SchedInv q) (hlt : q.active_jobs.card < q.max_parallel_jobs) :
    SchedInv (mark_started q x ts) := by
  obtain ⟨h1, h2, h3, _⟩ := hinv
  cases hm : firstMatch q.jobs x with
  | none => simpa [mark_started, hm] using ⟨h1, h2, h3, Nat.le_of_lt hlt⟩
  | some j₀ =>
      have hid : j₀.job_id = x := firstMatch_id _ _ _ hm
      set f : TranslationJob → TranslationJob :=
        fun j => { j with status := .running, started_at := some ts } with hfdef
      have hf_id : ∀ j, (f j).job_id = j.job_id := fun j => rfl
      have hf_st : ∀ j, (f j).status = TranslationStatus.running := fun j => rfl
      have hq' : mark_started q x ts =
          { q with jobs := updateFirst f x q.jobs,
                   active_jobs := insert x q.active_jobs } := by
        simp [mark_started, hm]
      rw [hq']
      have hgoal1 : ∀ y ∈ insert x q.active_jobs,
          (firstMatch (updateFirst f x q.jobs) y).map (fun j => j.status) =
            some TranslationStatus.running := by
        intro y hy
        by_cases hyx : y = x
        · subst hyx
          rw [firstMatch_updateFirst_self f y q.jobs j₀ hm
            (by rw [hf_id]; exact hid)]
          simp [hf_st]
        · rw [firstMatch_updateFirst_ne f x y q.jobs hyx hf_id]
          exact h1 y (by
            rcases Finset.mem_insert.mp hy with h | h
            · exact absurd h hyx
            · exact h)
      by_cases hx : x ∈ q.active_jobs
      · have hj₀run : j₀.status = TranslationStatus.running := by
          have := h1 x hx
          rw [hm] at this
          simpa using this
        have hins : insert x q.active_jobs = q.active_jobs :=
          Finset.insert_eq_self.mpr hx
        refine ⟨?_, ?_, ?_, ?_⟩
        · show ∀ y ∈ insert x q.active_jobs, _
          exact hgoal1
        · show ∀ y, runCountId (updateFirst f x q.jobs) y =
            if y ∈ insert x q.active_jobs then 1 else 0
          intro y
          have hcnt := runCountId_updateFirst f x y q.jobs j₀ hm
          rw [hf_id, hf_st] at hcnt
          have h2y := h2 y
          rw [hins]
          by_cases hyx : y = x
          · subst hyx
            rw [if_pos ⟨hid, hj₀run⟩, if_pos ⟨hid, rfl⟩] at hcnt
            omega
          · have hne : ¬ j₀.job_id = y := by
              rw [hid]; exact fun h => hyx h.symm
            rw [if_neg (fun h => hne h.1), if_neg (fun h => hne h.1)] at hcnt
            omega
        · show countStatus .running (updateFirst f x q.jobs) =
            (insert x q.active_jobs).card
          have hcnt := countStatus_updateFirst .running f x q.jobs j₀ hm
          rw [hf_st, if_pos hj₀run, if_pos rfl] at hcnt
          rw [hins]
          omega
        · show (insert x q.active_jobs).card ≤ q.max_parallel_jobs
          rw [hins]
          exact Nat.le_of_lt hlt
      · have hj₀notrun : ¬ j₀.status = TranslationStatus.running := by
          intro hrun
          have hpos := runCountId_pos_elem q.jobs x j₀
            (firstMatch_mem _ _ _ hm) hid hrun
          rw [h2 x, if_neg hx] at hpos
          exact Nat.lt_irrefl 0 hpos
        refine ⟨?_, ?_, ?_, ?_⟩
        · show ∀ y ∈ insert x q.active_jobs, _
          exact hgoal1
        · show ∀ y, runCountId (updateFirst f x q.jobs) y =
            if y ∈ insert x q.active_jobs then 1 else 0
          intro y
          have hcnt := runCountId_updateFirst f x y q.jobs j₀ hm
          rw [hf_id, hf_st] at hcnt
          have h2y := h2 y
          by_cases hyx : y = x
          · subst hyx
            rw [if_neg (fun h => hj₀notrun h.2), if_pos ⟨hid, rfl⟩] at hcnt
            rw [if_neg hx] at h2y
            rw [if_pos (Finset.mem_insert_self y _)]
            omega
          · have hne : ¬ j₀.job_id = y := by
              rw [hid]; exact fun h => hyx h.symm
            rw [if_neg (fun h => hne h.1), if_neg (fun h => hne h.1)] at hcnt
            simp only [Finset.mem_insert, hyx, false_or]
            omega
        · show countStatus .running (updateFirst f x q.jobs) =
            (insert x q.active_jobs).card
          have hcnt := countStatus_updateFirst .running f x q.jobs j₀ hm
          rw [hf_st, if_neg hj₀notrun, if_pos rfl] at hcnt
          rw [Finset.card_insert_of_not_mem hx]
          omega
        · show (insert x q.active_jobs).card ≤ q.max_parallel_jobs
          rw [Finset.card_insert_of_not_mem hx]
          omega

theorem firstMatch_append_of_some (jobs tail : List TranslationJob)
    (job_id : String) (j : TranslationJob)
    (h : firstMatch jobs job_id = some j) :
    firstMatch (jobs ++ tail) job_id = some j := by
  induction jobs with
  | nil => simp [firstMatch] at h
  | cons a rest ih =>
      by_cases ha : a.job_id = job_id
      · rw [firstMatch_cons_pos a rest job_id ha] at h
        rw [List.cons_append, firstMatch_cons_pos a _ job_id ha]
        exact h
      · rw [firstMatch_cons_neg a rest job_id ha] at h
        rw [List.cons_append, firstMatch_cons_neg a _ job_id ha]
        exact ih h

/-- Generic preservation of the scheduler invariant by the three terminal
markings: the first matching job gets a non-running status, its id leaves the
active dict, capacity is untouched. -/
theorem schedInv_terminal_aux (q : BatchTranslationQueue) (x : String)
    (f : TranslationJob → TranslationJob) (s' : TranslationStatus)
    (hs' : ¬ s' = TranslationStatus.running)
    (hf_id : ∀ j, (f j).job_id = j.job_id)
    (hf_st : ∀ j, (f j).status = s')
    (hinv : SchedInv q) (j₀ : TranslationJob)
    (hm : firstMatch q.jobs x = some j₀) (q' : BatchTranslationQueue)
    (hjobs : q'.jobs = updateFirst f x q.jobs)
    (hact : q'.active_jobs = q.active_jobs.erase x)
    (hcap : q'.max_parallel_jobs = q.max_parallel_jobs) : SchedInv q' := by
  obtain ⟨h1, h2, h3, h4⟩ := hinv
  have hid : j₀.job_id = x := firstMatch_id _ _ _ hm
  refine ⟨?_, ?_, ?_, ?_⟩
  · intro y hy
    rw [hact, Finset.mem_erase] at hy
    rw [hjobs, firstMatch_updateFirst_ne f x y q.jobs hy.1 hf_id]
    exact h1 y hy.2
  · intro y
    have hcnt := runCountId_updateFirst f x y q.jobs j₀ hm
    rw [hf_id, hf_st] at hcnt
    have eR : (if j₀.job_id = y ∧ s' = TranslationStatus.running
        then 1 else 0) = 0 :=
      if_neg (fun h : j₀.job_id = y ∧ s' = TranslationStatus.running => hs' h.2)
    rw [eR] at hcnt
    have h2y := h2 y
    rw [hjobs, hact]
    by_cases hyx : y = x
    · subst hyx
      rw [if_neg (Finset.not_mem_erase y _)]
      by_cases hx : y ∈ q.active_jobs
      · have hj₀run : j₀.status = TranslationStatus.running := by
          have := h1 y hx
          rw [hm] at this
          simpa using this
        have eL : (if j₀.job_id = y ∧ j₀.status = TranslationStatus.running
            then 1 else 0) = 1 := if_pos ⟨hid, hj₀run⟩
        rw [eL] at hcnt
        rw [if_pos hx] at h2y
        omega
      · have hj₀notrun : ¬ j₀.status = TranslationStatus.running := by
          intro hrun
          have hpos := runCountId_pos_elem q.jobs y j₀
            (firstMatch_mem _ _ _ hm) hid hrun
          rw [h2y, if_neg hx] at hpos
          exact Nat.lt_irrefl 0 hpos
        have eL : (if j₀.job_id = y ∧ j₀.status = TranslationStatus.running
            then 1 else 0) = 0 :=
          if_neg (fun h : _ ∧ j₀.status = TranslationStatus.running =>
            hj₀notrun h.2)
        rw [eL] at hcnt
        rw [if_neg hx] at h2y
        omega
    · have hne : ¬ j₀.job_id = y := by rw [hid]; exact fun h => hyx h.symm
      have eL : (if j₀.job_id = y ∧ j₀.status = TranslationStatus.running
          then 1 else 0) = 0 :=
        if_neg (fun h : j₀.job_id = y ∧ _ => hne h.1)
      rw [eL] at hcnt
      have e3 : (if y ∈ q.active_jobs.erase x then 1 else 0) =
          (if y ∈ q.active_jobs then 1 else 0) := by
        simp [Finset.mem_erase, ne_eq, hyx]
      rw [e3]
      omega
  · have hcnt := countStatus_updateFirst .running f x q.jobs j₀ hm
    rw [hf_st] at hcnt
    have eR : (if s' = TranslationStatus.running then 1 else 0) = 0 :=
      if_neg hs'
    rw [eR] at hcnt
    rw [hjobs, hact]
    by_cases hx : x ∈ q.active_jobs
    · have hj₀run : j₀.status = TranslationStatus.running := by
        have := h1 x hx
        rw [hm] at this
        simpa using this
      rw [if_pos hj₀run] at hcnt
      have hcard := Finset.card_erase_add_one hx
      omega
    · have hj₀notrun : ¬ j₀.status = TranslationStatus.running := by
        intro hrun
        have hpos := runCountId_pos_elem q.jobs x j₀
          (firstMatch_mem _ _ _ hm) hid hrun
        rw [h2 x, if_neg hx] at hpos
        exact Nat.lt_irrefl 0 hpos
      rw [if_neg hj₀notrun] at hcnt
      rw [Finset.erase_eq_of_not_mem hx]
      omega
  · rw [hact, hcap]
    exact le_trans (Finset.card_erase_le) h4

theorem schedInv_mark_completed (q : BatchTranslationQueue) (x : String)
    (out : Option String) (msg ts : String) (hinv : SchedInv q) :
    SchedInv (mark_completed q x out msg ts) := by
  cases hm : firstMatch q.jobs x with
  | none => simpa [mark_completed, hm] using hinv
  | some j₀ =>
      have hq' : mark_completed q x out msg ts =
          { q with
            jobs := updateFirst
              (fun j => { j with
                status := .completed
                progress := 100
                completed_at := some ts
                output_path := out
                message := if msg = "" then j.message else msg }) x q.jobs
            completed_jobs := q.completed_jobs ++ [x]
            active_jobs := q.active_jobs.erase x } := by
        simp [mark_completed, hm]
      rw [hq']
      exact schedInv_terminal_aux q x
        (fun j => { j with
          status := .completed
          progress := 100
          completed_at := some ts
          output_path := out
          message := if msg = "" then j.message else msg })
        .completed (by decide) (fun j => rfl) (fun j => rfl) hinv j₀ hm _
        rfl rfl rfl

theorem schedInv_mark_failed (q : BatchTranslationQueue) (x msg ts : String)
    (hinv : SchedInv q) : SchedInv (mark_failed q x msg ts) := by
  cases hm : firstMatch q.jobs x with
  | none => simpa [mark_failed, hm] using hinv
  | some j₀ =>
      have hq' : mark_failed q x msg ts =
          { q with
            jobs := updateFirst
              (fun j => { j with
                status := .failed
                completed_at := some ts
                message := if msg = "" then j.message else msg }) x q.jobs
            failed_jobs := q.failed_jobs ++ [x]
            active_jobs := q.active_jobs.erase x } := by
        simp [mark_failed, hm]
      rw [hq']
      exact schedInv_terminal_aux q x
        (fun j => { j with
          status := .failed
          completed_at := some ts
          message := if msg = "" then j.message else msg })
        .failed (by decide) (fun j => rfl) (fun j => rfl) hinv j₀ hm _
        rfl rfl rfl

theorem schedInv_mark_skipped (q : BatchTranslationQueue) (x msg ts : String)
    (hinv : SchedInv q) : SchedInv (mark_skipped q x msg ts) := by
  cases hm : firstMatch q.jobs x with
  | none => simpa [mark_skipped, hm] using hinv
  | some j₀ =>
      have hq' : mark_skipped q x msg ts =
          { q with
            jobs := updateFirst
              (fun j => { j with
                status := .skipped
                completed_at := some ts
                message := if msg = "" then j.message else msg }) x q.jobs
            active_jobs := q.active_jobs.erase x } := by
        simp [mark_skipped, hm]
      rw [hq']
      exact schedInv_terminal_aux q x
        (fun j => { j with
          status := .skipped
          completed_at := some ts
          message := if msg = "" then j.message else msg })
        .skipped (by decide) (fun j => rfl) (fun j => rfl) hinv j₀ hm _
        rfl rfl rfl

theorem schedInv_update_progress (q : BatchTranslationQueue) (x : String)
    (p : Int) (m : String) (hinv : SchedInv q) :
    SchedInv (update_progress q x p m) := by
  obtain ⟨h1, h2, h3, h4⟩ := hinv
  set f : TranslationJob → TranslationJob :=
    fun j => { j with
      progress := min 100 (max 0 p)
      message := if m = "" then j.message else m } with hfdef
  have hf_id : ∀ j, (f j).job_id = j.job_id := fun j => rfl
  have hf_st : ∀ j, (f j).status = j.status := fun j => rfl
  cases hm : firstMatch q.jobs x with
  | none =>
      have heq : update_progress q x p m = q := by
        rw [update_progress,
          updateFirst_of_no_match _ _ _ ((firstMatch_eq_none_iff _ _).mp hm)]
      rw [heq]
      exact ⟨h1, h2, h3, h4⟩
  | some j₀ =>
      have hid : j₀.job_id = x := firstMatch_id _ _ _ hm
      refine ⟨?_, ?_, ?_, ?_⟩
      · intro y hy
        show (firstMatch (updateFirst f x q.jobs) y).map (fun j => j.status) =
          some TranslationStatus.running
        by_cases hyx : y = x
        · subst hyx
          rw [firstMatch_updateFirst_self f y q.jobs j₀ hm
            (by rw [hf_id]; exact hid)]
          have := h1 y hy
          rw [hm] at this
          simpa [hf_st] using this
        · rw [firstMatch_updateFirst_ne f x y q.jobs hyx hf_id]
          exact h1 y hy
      · intro y
        show runCountId (updateFirst f x q.jobs) y =
          if y ∈ q.active_jobs then 1 else 0
        have hcnt := runCountId_updateFirst f x y q.jobs j₀ hm
        rw [hf_id, hf_st] at hcnt
        have h2y := h2 y
        omega
      · show countStatus .running (updateFirst f x q.jobs) = q.active_jobs.card
        have hcnt := countStatus_updateFirst .running f x q.jobs j₀ hm
        rw [hf_st] at hcnt
        omega
      · exact h4

theorem schedInv_append_pending (q : BatchTranslationQueue)
    (jNew : TranslationJob) (hnew : jNew.status = TranslationStatus.pending)
    (hinv : SchedInv q) :
    SchedInv { q with jobs := q.jobs ++ [jNew] } := by
  obtain ⟨h1, h2, h3, h4⟩ := hinv
  have hnotrun : ¬ jNew.status = TranslationStatus.running := by
    rw [hnew]; decide
  refine ⟨?_, ?_, ?_, ?_⟩
  · intro y hy
    have hsome := h1 y hy
    cases hm : firstMatch q.jobs y with
    | none => rw [hm] at hsome; simp at hsome
    | some j =>
        show (firstMatch (q.jobs ++ [jNew]) y).map (fun j => j.status) =
          some TranslationStatus.running
        rw [firstMatch_append_of_some q.jobs [jNew] y j hm]
        rw [hm] at hsome
        exact hsome
  · intro y
    show runCountId (q.jobs ++ [jNew]) y = if y ∈ q.active_jobs then 1 else 0
    rw [runCountId, List.countP_append]
    have hz : List.countP
        (fun j => decide (j.job_id = y ∧ j.status = TranslationStatus.running))
        [jNew] = 0 := by
      simp [hnotrun]
    rw [hz]
    exact h2 y
  · show countStatus .running (q.jobs ++ [jNew]) = q.active_jobs.card
    rw [countStatus, List.countP_append]
    have hz : List.countP
        (fun j => decide (j.status = TranslationStatus.running)) [jNew] = 0 := by
      simp [hnotrun]
    rw [hz]
    exact h3
  · exact h4

/-- A dispatch is only possible while the active dict is below capacity. -/
theorem get_next_job_lt (q : BatchTranslationQueue) (j : TranslationJob)
    (h : get_next_job q = some j) :
    q.active_jobs.card < q.max_parallel_jobs := by
  by_cases hlt : q.active_jobs.card < q.max_parallel_jobs
  · exact hlt
  · rw [get_next_job, if_neg hlt] at h
    exact absurd h (by simp)

theorem schedInv_step (q q' : BatchTranslationQueue) (hstep : SchedStep q q')
    (hinv : SchedInv q) : SchedInv q' := by
  cases hstep with
  | dispatch j ts h =>
      exact schedInv_mark_started q j.job_id ts hinv (get_next_job_lt q j h)
  | reapCompleted id out msg ts => exact schedInv_mark_completed q id out msg ts hinv
  | reapFailed id msg ts => exact schedInv_mark_failed q id msg ts hinv
  | progressStep id p msg => exact schedInv_update_progress q id p msg hinv

theorem schedInv_initial (q : BatchTranslationQueue) (h : InitialQueue q) :
    SchedInv q := by
  obtain ⟨hpend, hact, _, _⟩ := h
  have hnone : ∀ p : TranslationJob → Bool,
      (∀ j ∈ q.jobs, p j = false) → q.jobs.countP p = 0 := by
    intro p hp
    rw [List.countP_eq_zero]
    intro a ha
    rw [hp a ha]
    simp
  refine ⟨?_, ?_, ?_, ?_⟩
  · intro x hx
    rw [hact] at hx
    exact absurd hx (Finset.not_mem_empty x)
  · intro x
    rw [hact]
    simp only [Finset.not_mem_empty, if_false]
    apply hnone
    intro j hj
    have := hpend j hj
    simp [this]
  · rw [hact]
    simp only [Finset.card_empty]
    apply hnone
    intro j hj
    have := hpend j hj
    simp [this]
  · rw [hact]
    simp

theorem schedInv_reach (q0 q : BatchTranslationQueue) (h0 : InitialQueue q0)
    (hreach : SchedReach q0 q) : SchedInv q := by
  induction hreach with
  | refl => exact schedInv_initial q0 h0
  | tail hr hs ih => exact schedInv_step _ _ hs ih

/-! ## Claim C1 -/

/-- C1: for every configured capacity `max_parallel_jobs ≥ 1` and every number
of added jobs (any all-pending starting queue), in every state reachable by
the scheduler's reap/dispatch step relation, the number of jobs whose status
is running never exceeds the configured capacity. -/
theorem C1_running_le_capacity (q0 q : BatchTranslationQueue)
    (h0 : InitialQueue q0) (hreach : SchedReach q0 q)
    (_hcap : 1 ≤ q.max_parallel_jobs) :
    countStatus .running q.jobs ≤ q.max_parallel_jobs := by
  obtain ⟨_, _, h3, h4⟩ := schedInv_reach q0 q h0 hreach
  omega

/-- A one-job, capacity-one starting queue used to instantiate the reachability
theorems. -/
def qW : BatchTranslationQueue :=
  { max_parallel_jobs := 1
    jobs := [mkJob "a.srt" .whisper "1"]
    active_jobs := ∅
    completed_jobs := []
    failed_jobs := [] }

theorem qW_initial : InitialQueue qW := by
  refine ⟨?_, rfl, rfl, rfl⟩
  intro j hj
  simp only [qW, List.mem_singleton] at hj
  subst hj
  rfl

/-- Witness for C1 at the concrete queue `qW`. -/
theorem C1_running_le_capacity_witness :
    (InitialQueue qW ∧ SchedReach qW qW ∧ 1 ≤ qW.max_parallel_jobs) ∧
      countStatus .running qW.jobs ≤ qW.max_parallel_jobs :=
  ⟨⟨qW_initial, SchedReach.refl qW, by decide⟩,
   C1_running_le_capacity qW qW qW_initial (SchedReach.refl qW) (by decide)⟩

/-! ## Claim C5 -/

/-- C5: in every reachable queue state, `get_next_job` returns the
earliest-inserted pending job exactly when the count of running jobs is below
the configured capacity, and returns none when the running count is at or
above capacity or when no pending job exists; dispatch order is therefore
FIFO by insertion. -/
theorem C5_next_dispatchable (q0 q : BatchTranslationQueue)
    (h0 : InitialQueue q0) (hreach : SchedReach q0 q) :
    (countStatus .running q.jobs < q.max_parallel_jobs →
      get_next_job q =
        q.jobs.find? (fun j => decide (j.status = TranslationStatus.pending)) ∧
      ∀ j, get_next_job q = some j →
        j.status = TranslationStatus.pending ∧
        ∃ pre post, q.jobs = pre ++ j :: post ∧
          ∀ i ∈ pre, ¬ i.status = TranslationStatus.pending) ∧
    (q.max_parallel_jobs ≤ countStatus .running q.jobs →
      get_next_job q = none) ∧
    ((∀ j ∈ q.jobs, ¬ j.status = TranslationStatus.pending) →
      get_next_job q = none) := by
  obtain ⟨_, _, h3, _⟩ := schedInv_reach q0 q h0 hreach
  refine ⟨?_, ?_, ?_⟩
  · intro hlt
    have hcard : q.active_jobs.card < q.max_parallel_jobs := by omega
    have hget : get_next_job q =
        q.jobs.find? (fun j => decide (j.status = TranslationStatus.pending)) := by
      rw [get_next_job, if_pos hcard]
    refine ⟨hget, ?_⟩
    intro j hj
    rw [hget] at hj
    have hp : j.status = TranslationStatus.pending := by
      have := List.find?_some hj
      simpa using this
    refine ⟨hp, ?_⟩
    rcases find?_eq_some_split _ _ _ hj with ⟨pre, post, hsplit, hpre, _⟩
    refine ⟨pre, post, hsplit, ?_⟩
    intro i hi
    have := hpre i hi
    simpa using this
  · intro hge
    have hcard : ¬ q.active_jobs.card < q.max_parallel_jobs := by omega
    rw [get_next_job, if_neg hcard]
  · intro hnone
    have hfind : q.jobs.find?
        (fun j => decide (j.status = TranslationStatus.pending)) = none := by
      rw [List.find?_eq_none]
      intro a ha
      simpa using hnone a ha
    by_cases hcard : q.active_jobs.card < q.max_parallel_jobs
    · rw [get_next_job, if_pos hcard, hfind]
    · rw [get_next_job, if_neg hcard]

/-- Witness for C5 at the concrete queue `qW`. -/
theorem C5_next_dispatchable_witness :
    (InitialQueue qW ∧ SchedReach qW qW) ∧
      ((countStatus .running qW.jobs < qW.max_parallel_jobs →
        get_next_job qW =
          qW.jobs.find? (fun j => decide (j.status = TranslationStatus.pending)) ∧
        ∀ j, get_next_job qW = some j →
          j.status = TranslationStatus.pending ∧
          ∃ pre post, qW.jobs = pre ++ j :: post ∧
            ∀ i ∈ pre, ¬ i.status = TranslationStatus.pending) ∧
      (qW.max_parallel_jobs ≤ countStatus .running qW.jobs →
        get_next_job qW = none) ∧
      ((∀ j ∈ qW.jobs, ¬ j.status = TranslationStatus.pending) →
        get_next_job qW = none)) :=
  ⟨⟨qW_initial, SchedReach.refl qW⟩,
   C5_next_dispatchable qW qW qW_initial (SchedReach.refl qW)⟩

/-! ## Claim C2 -/

/-- A job that has already reached the terminal completed state. -/
def jDone : TranslationJob :=
  { file_path := "a.srt"
    engine := .whisper
    job_id := "1"
    status := .completed
    progress := 100
    message := "done"
    output_path := some "a.ar.srt"
    created_at := "t0"
    started_at := some "t1"
    completed_at := some "t2" }

/-- A queue whose only job is terminal, as left behind by a completed run. -/
def qDone : BatchTranslationQueue :=
  { max_parallel_jobs := 2
    jobs := [jDone]
    active_jobs := ∅
    completed_jobs := ["1"]
    failed_jobs := [] }

/-- C2 counterexample: `mark_started` on a job already in the terminal
completed state is not a no-op — it moves the job back into running, so a job
does transition out of a terminal state. -/
theorem C2_counterexample :
    jDone.status.isTerminal = true ∧
    mark_started qDone "1" "t3" ≠ qDone ∧
    (firstMatch (mark_started qDone "1" "t3").jobs "1").map (fun j => j.status) =
      some TranslationStatus.running := by
  refine ⟨rfl, ?_, ?_⟩ <;> decide

/-- C2 amended: a call whose job id is unknown to the queue leaves the queue —
every job record and every history list — unchanged and raises no error, for
all five mutations; but a job already in a terminal state is not protected:
`mark_started` moves whatever job fronts the id back into running. -/
theorem C2_unknown_id_noop :
    (∀ (q : BatchTranslationQueue) (id ts m : String) (p : Int)
        (out : Option String),
      (∀ j ∈ q.jobs, j.job_id ≠ id) →
        mark_started q id ts = q ∧
        update_progress q id p m = q ∧
        mark_completed q id out m ts = q ∧
        mark_failed q id m ts = q ∧
        mark_skipped q id m ts = q) ∧
    (∀ (q : BatchTranslationQueue) (id ts : String) (j₀ : TranslationJob),
      firstMatch q.jobs id = some j₀ →
        (firstMatch (mark_started q id ts).jobs id).map (fun j => j.status) =
          some TranslationStatus.running) := by
  constructor
  · intro q id ts m p out h
    have hm : firstMatch q.jobs id = none := (firstMatch_eq_none_iff _ _).mpr h
    refine ⟨?_, ?_, ?_, ?_, ?_⟩
    · simp [mark_started, hm]
    · rw [update_progress, updateFirst_of_no_match _ _ _ h]
    · simp [mark_completed, hm]
    · simp [mark_failed, hm]
    · simp [mark_skipped, hm]
  · intro q id ts j₀ hm
    have hid : j₀.job_id = id := firstMatch_id _ _ _ hm
    have hq' : mark_started q id ts =
        { q with
          jobs := updateFirst
            (fun j => { j with status := .running, started_at := some ts })
            id q.jobs
          active_jobs := insert id q.active_jobs } := by
      simp [mark_started, hm]
    rw [hq']
    show (firstMatch (updateFirst _ id q.jobs) id).map (fun j => j.status) = _
    rw [firstMatch_updateFirst_self _ id q.jobs j₀ hm hid]
    rfl

/-- Witness for C2's amended no-op behaviour: the id "zz" is unknown to `qW`,
and every mutation referencing it leaves the queue unchanged. -/
theorem C2_unknown_id_noop_witness :
    (∀ j ∈ qW.jobs, j.job_id ≠ "zz") ∧
      (mark_started qW "zz" "t" = qW ∧
       update_progress qW "zz" 5 "m" = qW ∧
       mark_completed qW "zz" (some "o") "m" "t" = qW ∧
       mark_failed qW "zz" "m" "t" = qW ∧
       mark_skipped qW "zz" "m" "t" = qW) ∧
    (firstMatch qDone.jobs "1" = some jDone ∧
      (firstMatch (mark_started qDone "1" "t3").jobs "1").map
          (fun j => j.status) = some TranslationStatus.running) :=
  ⟨by decide,
   C2_unknown_id_noop.1 qW "zz" "t" "m" 5 (some "o") (by decide),
   by decide,
   C2_unknown_id_noop.2 qDone "1" "t3" jDone (by decide)⟩

/-! ## Claim C3 -/

/-- C3 counterexample: a run in which one job's executor invokes `on_failed`
and then returns False makes the direct-connected handlers call `mark_failed`
twice for the same job (SingleJobWorker.run emits the generic failure without
checking whether `on_failed` already fired).  The second call appends the job
to the failed history again, so the snapshot reports two failures for a
one-job queue and the claimed identity fails — the snapshot moreover has no
skipped component at all. -/
def qC3 : BatchTranslationQueue :=
  mark_failed
    (mark_failed
      (mark_started
        (add_multiple_jobs (fun _ => true) .whisper (emptyQueue 2)
          [("a.srt", "1")]).1
        "1" "t1")
      "1" "boom" "t2")
    "1" "Translation failed" "t3"

theorem C3_counterexample :
    get_statistics qC3 = ⟨1, 0, 0, 0, 2, 2⟩ ∧
    ¬ (get_statistics qC3).total_jobs =
        (get_statistics qC3).pending + (get_statistics qC3).active +
          (get_statistics qC3).completed + (get_statistics qC3).failed +
          countStatus .skipped qC3.jobs := by
  constructor <;> decide

/-- One disciplined step against the queue: adds use fresh ids (timestamps do
not repeat), reaps target a currently-active job (each worker's terminal
signal is delivered once), skips target a pending job, and progress reports
are unrestricted.  This is the usage discipline of the scheduler and GUI when
no terminal signal is duplicated. -/
inductive DiscStep (fs : String → Bool) :
    BatchTranslationQueue → BatchTranslationQueue → Prop
  | addStep (q : BatchTranslationQueue) (path : String)
      (eng : TranslationEngineType) (ts : String)
      (q' : BatchTranslationQueue) (jb : TranslationJob)
      (hfresh : ∀ j ∈ q.jobs, j.job_id ≠ ts)
      (h : add_job fs q path eng ts = Except.ok (q', jb)) : DiscStep fs q q'
  | dispatch (q : BatchTranslationQueue) (j : TranslationJob) (ts : String)
      (h : get_next_job q = some j) : DiscStep fs q (mark_started q j.job_id ts)
  | reapCompleted (q : BatchTranslationQueue) (id : String)
      (out : Option String) (msg ts : String) (h : id ∈ q.active_jobs) :
      DiscStep fs q (mark_completed q id out msg ts)
  | reapFailed (q : BatchTranslationQueue) (id msg ts : String)
      (h : id ∈ q.active_jobs) : DiscStep fs q (mark_failed q id msg ts)
  | skipPending (q : BatchTranslationQueue) (id msg ts : String)
      (j₀ : TranslationJob) (hm : firstMatch q.jobs id = some j₀)
      (hp : j₀.status = TranslationStatus.pending) :
      DiscStep fs q (mark_skipped q id msg ts)
  | progressStep (q : BatchTranslationQueue) (id : String) (p : Int)
      (msg : String) : DiscStep fs q (update_progress q id p msg)

/-- Reflexive-transitive closure of the disciplined step. -/
inductive DiscReach (fs : String → Bool) :
    BatchTranslationQueue → BatchTranslationQueue → Prop
  | refl (q : BatchTranslationQueue) : DiscReach fs q q
  | tail {a b c : BatchTranslationQueue} :
      DiscReach fs a b → DiscStep fs b c → DiscReach fs a c

/-- Invariant carried through disciplined runs: the scheduler invariant, plus
pairwise-distinct job ids and history lists whose lengths agree with the
status counts. -/
def DiscInv (q : BatchTranslationQueue) : Prop :=
  SchedInv q ∧ (q.jobs.map (fun j => j.job_id)).Nodup ∧
    q.completed_jobs.length = countStatus .completed q.jobs ∧
    q.failed_jobs.length = countStatus .failed q.jobs

theorem map_jobid_updateFirst (f : TranslationJob → TranslationJob)
    (job_id : String) (jobs : List TranslationJob)
    (hf : ∀ j, (f j).job_id = j.job_id) :
    (updateFirst f job_id jobs).map (fun j => j.job_id) =
      jobs.map (fun j => j.job_id) := by
  induction jobs with
  | nil => rfl
  | cons j rest ih =>
      by_cases hj : j.job_id = job_id
      · simp [updateFirst, if_pos hj, hf]
      · simp [updateFirst, if_neg hj, ih]

theorem discInv_empty (cap : Nat) : DiscInv (emptyQueue cap) := by
  refine ⟨⟨?_, ?_, ?_, ?_⟩, ?_, ?_, ?_⟩ <;>
    simp [emptyQueue, runCountId, countStatus]

theorem discInv_step (fs : String → Bool) (q q' : BatchTranslationQueue)
    (hstep : DiscStep fs q q') (hinv : DiscInv q) : DiscInv q' := by
  obtain ⟨hs, hnd, hc, hfl⟩ := hinv
  cases hstep with
  | addStep path eng ts q' jb hfresh h =>
      by_cases hex : fs path
      · rw [add_job, if_pos hex] at h
        simp only [Except.ok.injEq, Prod.mk.injEq] at h
        obtain ⟨hq', _⟩ := h
        subst hq'
        refine ⟨schedInv_append_pending q (mkJob path eng ts) rfl hs, ?_, ?_, ?_⟩
        · show ((q.jobs ++ [mkJob path eng ts]).map (fun j => j.job_id)).Nodup
          rw [List.map_append]
          refine List.Nodup.append hnd (by simp) ?_
          intro a ha hb
          simp only [mkJob, List.map_cons, List.map_nil,
            List.mem_singleton] at hb
          subst hb
          rcases List.mem_map.mp ha with ⟨j, hj, hjt⟩
          exact hfresh j hj hjt
        · show q.completed_jobs.length =
            countStatus .completed (q.jobs ++ [mkJob path eng ts])
          rw [countStatus, List.countP_append]
          simpa [countStatus, mkJob] using hc
        · show q.failed_jobs.length =
            countStatus .failed (q.jobs ++ [mkJob path eng ts])
          rw [countStatus, List.countP_append]
          simpa [countStatus, mkJob] using hfl
      · rw [add_job, if_neg hex] at h
        exact absurd h (by simp)
  | dispatch j ts h =>
      have hlt := get_next_job_lt q j h
      rw [get_next_job, if_pos hlt] at h
      have hjp : j.status = TranslationStatus.pending := by
        have := List.find?_some h
        simpa using this
      have hjmem : j ∈ q.jobs := List.mem_of_find?_eq_some h
      have hm : firstMatch q.jobs j.job_id = some j := by
        cases hm0 : firstMatch q.jobs j.job_id with
        | none =>
            exact absurd rfl
              (((firstMatch_eq_none_iff _ _).mp hm0) j hjmem)
        | some j₀ =>
            have hid : j₀.job_id = j.job_id := firstMatch_id _ _ _ hm0
            have hj₀mem : j₀ ∈ q.jobs := firstMatch_mem _ _ _ hm0
            have : j₀ = j := List.inj_on_of_nodup_map hnd hj₀mem hjmem hid
            rw [this]
      set f : TranslationJob → TranslationJob :=
        fun x => { x with status := .running, started_at := some ts } with hfdef
      have hjobs : (mark_started q j.job_id ts).jobs =
          updateFirst f j.job_id q.jobs := by
        simp [mark_started, hm]
      have hcomp : (mark_started q j.job_id ts).completed_jobs =
          q.completed_jobs := by
        simp [mark_started, hm]
      have hfail : (mark_started q j.job_id ts).failed_jobs = q.failed_jobs := by
        simp [mark_started, hm]
      refine ⟨schedInv_mark_started q j.job_id ts hs hlt, ?_, ?_, ?_⟩
      · rw [hjobs, map_jobid_updateFirst f _ _ (fun x => rfl)]
        exact hnd
      · rw [hjobs, hcomp]
        have hcnt := countStatus_updateFirst .completed f j.job_id q.jobs j hm
        have e1 : (if j.status = TranslationStatus.completed then 1 else 0) = 0 :=
          if_neg (by rw [hjp]; exact fun hx => TranslationStatus.noConfusion hx)
        have e2 : (if (f j).status = TranslationStatus.completed
            then 1 else 0) = 0 :=
          if_neg (fun hx => TranslationStatus.noConfusion hx)
        rw [e1, e2] at hcnt
        omega
      · rw [hjobs, hfail]
        have hcnt := countStatus_updateFirst .failed f j.job_id q.jobs j hm
        have e1 : (if j.status = TranslationStatus.failed then 1 else 0) = 0 :=
          if_neg (by rw [hjp]; exact fun hx => TranslationStatus.noConfusion hx)
        have e2 : (if (f j).status = TranslationStatus.failed
            then 1 else 0) = 0 :=
          if_neg (fun hx => TranslationStatus.noConfusion hx)
        rw [e1, e2] at hcnt
        omega
  | reapCompleted id out msg ts hx =>
      have hsome := hs.1 id hx
      cases hm : firstMatch q.jobs id with
      | none => rw [hm] at hsome; exact absurd hsome (by simp)
      | some j₀ =>
          have hrun : j₀.status = TranslationStatus.running := by
            rw [hm] at hsome; simpa using hsome
          set f : TranslationJob → TranslationJob :=
            fun x => { x with
              status := .completed
              progress := 100
              completed_at := some ts
              output_path := out
              message := if msg = "" then x.message else msg } with hfdef
          have hjobs : (mark_completed q id out msg ts).jobs =
              updateFirst f id q.jobs := by
            simp [mark_completed, hm]
          have hcomp : (mark_completed q id out msg ts).completed_jobs =
              q.completed_jobs ++ [id] := by
            simp [mark_completed, hm]
          have hfail : (mark_completed q id out msg ts).failed_jobs =
              q.failed_jobs := by
            simp [mark_completed, hm]
          refine ⟨schedInv_mark_completed q id out msg ts hs, ?_, ?_, ?_⟩
          · rw [hjobs, map_jobid_updateFirst f _ _ (fun x => rfl)]
            exact hnd
          · rw [hjobs, hcomp]
            have hcnt := countStatus_updateFirst .completed f id q.jobs j₀ hm
            have e1 : (if j₀.status = TranslationStatus.completed
                then 1 else 0) = 0 :=
              if_neg (by rw [hrun]; exact fun hy => TranslationStatus.noConfusion hy)
            have e2 : (if (f j₀).status = TranslationStatus.completed
                then 1 else 0) = 1 := if_pos rfl
            rw [e1, e2] at hcnt
            rw [List.length_append]
            simp only [List.length_singleton]
            omega
          · rw [hjobs, hfail]
            have hcnt := countStatus_updateFirst .failed f id q.jobs j₀ hm
            have e1 : (if j₀.status = TranslationStatus.failed
                then 1 else 0) = 0 :=
              if_neg (by rw [hrun]; exact fun hy => TranslationStatus.noConfusion hy)
            have e2 : (if (f j₀).status = TranslationStatus.failed
                then 1 else 0) = 0 :=
              if_neg (fun hy => TranslationStatus.noConfusion hy)
            rw [e1, e2] at hcnt
            omega
  | reapFailed id msg ts hx =>
      have hsome := hs.1 id hx
      cases hm : firstMatch q.jobs id with
      | none => rw [hm] at hsome; exact absurd hsome (by simp)
      | some j₀ =>
          have hrun : j₀.status = TranslationStatus.running := by
            rw [hm] at hsome; simpa using hsome
          set f : TranslationJob → TranslationJob :=
            fun x => { x with
              status := .failed
              completed_at := some ts
              message := if msg = "" then x.message else msg } with hfdef
          have hjobs : (mark_failed q id msg ts).jobs =
              updateFirst f id q.jobs := by
            simp [mark_failed, hm]
          have hcomp : (mark_failed q id msg ts).completed_jobs =
              q.completed_jobs := by
            simp [mark_failed, hm]
          have hfail : (mark_failed q id msg ts).failed_jobs =
              q.failed_jobs ++ [id] := by
            simp [mark_failed, hm]
          refine ⟨schedInv_mark_failed q id msg ts hs, ?_, ?_, ?_⟩
          · rw [hjobs, map_jobid_updateFirst f _ _ (fun x => rfl)]
            exact hnd
          · rw [hjobs, hcomp]
            have hcnt := countStatus_updateFirst .completed f id q.jobs j₀ hm
            have e1 : (if j₀.status = TranslationStatus.completed
                then 1 else 0) = 0 :=
              if_neg (by rw [hrun]; exact fun hy => TranslationStatus.noConfusion hy)
            have e2 : (if (f j₀).status = TranslationStatus.completed
                then 1 else 0) = 0 :=
              if_neg (fun hy => TranslationStatus.noConfusion hy)
            rw [e1, e2] at hcnt
            omega
          · rw [hjobs, hfail]
            have hcnt := countStatus_updateFirst .failed f id q.jobs j₀ hm
            have e1 : (if j₀.status = TranslationStatus.failed
                then 1 else 0) = 0 :=
              if_neg (by rw [hrun]; exact fun hy => TranslationStatus.noConfusion hy)
            have e2 : (if (f j₀).status = TranslationStatus.failed
                then 1 else 0) = 1 := if_pos rfl
            rw [e1, e2] at hcnt
            rw [List.length_append]
            simp only [List.length_singleton]
            omega
  | skipPending id msg ts j₀ hm hp =>
      set f : TranslationJob → TranslationJob :=
        fun x => { x with
          status := .skipped
          completed_at := some ts
          message := if msg = "" then x.message else msg } with hfdef
      have hjobs : (mark_skipped q id msg ts).jobs =
          updateFirst f id q.jobs := by
        simp [mark_skipped, hm]
      have hcomp : (mark_skipped q id msg ts).completed_jobs =
          q.completed_jobs := by
        simp [mark_skipped, hm]
      have hfail : (mark_skipped q id msg ts).failed_jobs = q.failed_jobs := by
        simp [mark_skipped, hm]
      refine ⟨schedInv_mark_skipped q id msg ts hs, ?_, ?_, ?_⟩
      · rw [hjobs, map_jobid_updateFirst f _ _ (fun x => rfl)]
        exact hnd
      · rw [hjobs, hcomp]
        have hcnt := countStatus_updateFirst .completed f id q.jobs j₀ hm
        have e1 : (if j₀.status = TranslationStatus.completed
            then 1 else 0) = 0 :=
          if_neg (by rw [hp]; exact fun hy => TranslationStatus.noConfusion hy)
        have e2 : (if (f j₀).status = TranslationStatus.completed
            then 1 else 0) = 0 :=
          if_neg (fun hy => TranslationStatus.noConfusion hy)
        rw [e1, e2] at hcnt
        omega
      · rw [hjobs, hfail]
        have hcnt := countStatus_updateFirst .failed f id q.jobs j₀ hm
        have e1 : (if j₀.status = TranslationStatus.failed
            then 1 else 0) = 0 :=
          if_neg (by rw [hp]; exact fun hy => TranslationStatus.noConfusion hy)
        have e2 : (if (f j₀).status = TranslationStatus.failed
            then 1 else 0) = 0 :=
          if_neg (fun hy => TranslationStatus.noConfusion hy)
        rw [e1, e2] at hcnt
        omega
  | progressStep id p msg =>
      set f : TranslationJob → TranslationJob :=
        fun x => { x with
          progress := min 100 (max 0 p)
          message := if msg = "" then x.message else msg } with hfdef
      have hjobs : (update_progress q id p msg).jobs =
          updateFirst f id q.jobs := rfl
      have hcomp : (update_progress q id p msg).completed_jobs =
          q.completed_jobs := rfl
      have hfail : (update_progress q id p msg).failed_jobs =
          q.failed_jobs := rfl
      refine ⟨schedInv_update_progress q id p msg hs, ?_, ?_, ?_⟩
      · rw [hjobs, map_jobid_updateFirst f _ _ (fun x => rfl)]
        exact hnd
      · rw [hjobs, hcomp]
        cases hm : firstMatch q.jobs id with
        | none =>
            rw [updateFirst_of_no_match f id q.jobs
              ((firstMatch_eq_none_iff _ _).mp hm)]
            exact hc
        | some j₀ =>
            have hcnt := countStatus_updateFirst .completed f id q.jobs j₀ hm
            have hst : (f j₀).status = j₀.status := rfl
            rw [hst] at hcnt
            omega
      · rw [hjobs, hfail]
        cases hm : firstMatch q.jobs id with
        | none =>
            rw [updateFirst_of_no_match f id q.jobs
              ((firstMatch_eq_none_iff _ _).mp hm)]
            exact hfl
        | some j₀ =>
            have hcnt := countStatus_updateFirst .failed f id q.jobs j₀ hm
            have hst : (f j₀).status = j₀.status := rfl
            rw [hst] at hcnt
            omega

theorem discInv_reach (fs : String → Bool) (q0 q : BatchTranslationQueue)
    (h0 : DiscInv q0) (hreach : DiscReach fs q0 q) : DiscInv q := by
  induction hreach with
  | refl => exact h0
  | tail hr hstep ih => exact discInv_step fs _ _ hstep ih

/-- Every job carries exactly one of the five statuses, so the status counts
partition the job list. -/
theorem statuses_partition (jobs : List TranslationJob) :
    jobs.length =
      countStatus .pending jobs + countStatus .running jobs +
        countStatus .completed jobs + countStatus .failed jobs +
        countStatus .skipped jobs := by
  induction jobs with
  | nil => rfl
  | cons j rest ih =>
      simp only [List.length_cons, countStatus, List.countP_cons] at ih ⊢
      cases hst : j.status <;> simp [hst] <;> omega

/-- C3 amended: the snapshot has no skipped field; with the skipped count
taken from the job statuses, the identity `total = pending + active +
completed + failed + skipped` holds in every queue state reachable under the
disciplined step relation (fresh ids, one terminal marking per job, skips on
pending jobs) — in particular after any job has been marked skipped. -/
theorem C3_stats_identity_disciplined (fs : String → Bool) (cap : Nat)
    (q : BatchTranslationQueue) (hreach : DiscReach fs (emptyQueue cap) q) :
    (get_statistics q).total_jobs =
      (get_statistics q).pending + (get_statistics q).active +
        (get_statistics q).completed + (get_statistics q).failed +
        countStatus .skipped q.jobs := by
  obtain ⟨⟨_, _, h3, _⟩, _, hcomp, hfail⟩ :=
    discInv_reach fs _ q (discInv_empty cap) hreach
  show q.jobs.length =
    countStatus .pending q.jobs + q.active_jobs.card +
      q.completed_jobs.length + q.failed_jobs.length +
      countStatus .skipped q.jobs
  rw [hcomp, hfail, ← h3]
  exact statuses_partition q.jobs

/-- The all-true existence oracle (every path resolves). -/
def fsAllTrue : String → Bool := fun _ => true

/-- The queue holding exactly one freshly added job. -/
def qAdd1 : BatchTranslationQueue :=
  { emptyQueue 2 with jobs := [mkJob "a.srt" .whisper "1"] }

/-- The queue after adding one job and marking it skipped. -/
def qSkip1 : BatchTranslationQueue := mark_skipped qAdd1 "1" "exists already" "t1"

/-- Witness for C3's amended identity at a disciplined state containing a
skipped job. -/
theorem C3_stats_identity_disciplined_witness :
    DiscReach fsAllTrue (emptyQueue 2) qSkip1 ∧
      (get_statistics qSkip1).total_jobs =
        (get_statistics qSkip1).pending + (get_statistics qSkip1).active +
          (get_statistics qSkip1).completed + (get_statistics qSkip1).failed +
          countStatus .skipped qSkip1.jobs := by
  have step1 : DiscStep fsAllTrue (emptyQueue 2) qAdd1 :=
    DiscStep.addStep (emptyQueue 2) "a.srt" .whisper "1" qAdd1
      (mkJob "a.srt" .whisper "1") (by simp [emptyQueue]) (by rfl)
  have step2 : DiscStep fsAllTrue qAdd1 qSkip1 :=
    DiscStep.skipPending qAdd1 "1" "exists already" "t1"
      (mkJob "a.srt" .whisper "1") (by decide) rfl
  have hreach : DiscReach fsAllTrue (emptyQueue 2) qSkip1 :=
    DiscReach.tail (DiscReach.tail (DiscReach.refl _) step1) step2
  exact ⟨hreach, C3_stats_identity_disciplined fsAllTrue 2 qSkip1 hreach⟩

/-! ## Claim C4 -/

/-- C4: evaluation of the worker bridging at the deciding inputs.  The first
two blocks confirm the claim's false-return and exception clauses: a False
return with no `on_failed` invocation synthesizes the generic failure and the
job ends Failed; a raised exception becomes that job's Failed transition with
the exception text.  The last block is the violation: an executor that
returns True without invoking `on_completed` makes the worker emit nothing,
and the dispatched job is left in the non-terminal running state — no
completion is synthesized. -/
theorem C4_worker_bridging :
    ((firstMatch (managerRun (fun _ => ⟨[], ExecResult.ret false⟩) "t"
        qAdd1).jobs "1").map (fun j => j.status) =
      some TranslationStatus.failed ∧
     (firstMatch (managerRun (fun _ => ⟨[], ExecResult.ret false⟩) "t"
        qAdd1).jobs "1").map (fun j => j.message) =
      some "Translation failed") ∧
    ((firstMatch (managerRun (fun _ => ⟨[], ExecResult.exn "kaboom"⟩) "t"
        qAdd1).jobs "1").map (fun j => j.status) =
      some TranslationStatus.failed ∧
     (firstMatch (managerRun (fun _ => ⟨[], ExecResult.exn "kaboom"⟩) "t"
        qAdd1).jobs "1").map (fun j => j.message) = some "kaboom") ∧
    (workerSignals "1" ⟨[], ExecResult.ret true⟩ = [] ∧
     (firstMatch (managerRun (fun _ => ⟨[], ExecResult.ret true⟩) "t"
        qAdd1).jobs "1").map (fun j => j.status) =
      some TranslationStatus.running ∧
     TranslationStatus.running.isTerminal = false) := by
  refine ⟨⟨?_, ?_⟩, ⟨?_, ?_⟩, ?_, ?_, ?_⟩ <;> decide

/-! ## Claim C6 -/

theorem simpleApplyEvents_no_finish (j : TranslationJob) (err : Bool)
    (evs : List CbEvent) :
    ((simpleApplyEvents j err evs).2.2).countP BSig.isBatchFinished = 0 := by
  induction evs generalizing j err with
  | nil => rfl
  | cons e rest ih =>
      cases e <;>
        simp [simpleApplyEvents, simpleApplyEvent, List.countP_append,
          List.countP_cons, BSig.isBatchFinished, ih]

theorem simpleProcessJob_no_finish (j : TranslationJob) (o : ExecOutcome) :
    ((simpleProcessJob j o).2.2).countP BSig.isBatchFinished = 0 := by
  rcases o with ⟨evs, res⟩
  cases res with
  | ret b =>
      cases b
      · simp only [simpleProcessJob, List.countP_append]
        rw [simpleApplyEvents_no_finish]
        split <;> simp [List.countP_cons, BSig.isBatchFinished]
      · simp only [simpleProcessJob, List.countP_append]
        rw [simpleApplyEvents_no_finish]
        simp [List.countP_cons, BSig.isBatchFinished]
  | exn e =>
      simp only [simpleProcessJob, List.countP_append]
      rw [simpleApplyEvents_no_finish]
      simp [List.countP_cons, BSig.isBatchFinished]

theorem simpleLoop_spec (total : Nat) (outs : Nat → ExecOutcome)
    (jobs : List TranslationJob) : ∀ i c f,
    (simpleLoop total outs jobs i c f).1 +
        (simpleLoop total outs jobs i c f).2.1 = c + f + jobs.length ∧
      ((simpleLoop total outs jobs i c f).2.2).countP BSig.isBatchFinished = 0 := by
  induction jobs with
  | nil => intro i c f; simp [simpleLoop]
  | cons j rest ih =>
      intro i c f
      simp only [simpleLoop, List.length_cons]
      constructor
      · cases hsucc : (simpleProcessJob j (outs i)).2.1 with
        | true =>
            have := (ih (i + 1) (c + 1) f).1
            simp only [hsucc, if_pos] at this ⊢
            omega
        | false =>
            have := (ih (i + 1) c (f + 1)).1
            simp only [hsucc, Bool.false_eq_true, if_false] at this ⊢
            omega
      · simp only [List.countP_append, List.countP_cons]
        rw [simpleProcessJob_no_finish]
        cases hsucc : (simpleProcessJob j (outs i)).2.1 with
        | true =>
            have := (ih (i + 1) (c + 1) f).2
            simp only [hsucc, if_pos] at this ⊢
            simp [this, BSig.isBatchFinished]
        | false =>
            have := (ih (i + 1) c (f + 1)).2
            simp only [hsucc, Bool.false_eq_true, if_false] at this ⊢
            simp [this, BSig.isBatchFinished]

/-- C6 amended: in the sequential SimpleBatchProcessor, for every job list and
every executor outcome, `batch_finished` is emitted exactly once and the final
counters satisfy completed + failed = total (no skipped state exists there).
In the threaded manager this totals identity does not survive duplicate or
missing terminal markings (see the counterexample). -/
theorem C6_simple_batch_totals (jobs : List TranslationJob)
    (outs : Nat → ExecOutcome) :
    (simpleBatchRun jobs outs).1 + (simpleBatchRun jobs outs).2.1 =
        jobs.length ∧
      ((simpleBatchRun jobs outs).2.2).countP BSig.isBatchFinished = 1 := by
  have h := simpleLoop_spec jobs.length outs jobs 0 0 0
  constructor
  · simpa [simpleBatchRun] using h.1
  · simp only [simpleBatchRun, List.countP_append]
    rw [h.2]
    simp [List.countP_cons, BSig.isBatchFinished]

/-- C6 counterexample: one job whose executor behaves exactly as the contract
describes for a failure — it invokes `on_failed` once and returns False — is
counted twice in the failed component by the threaded manager (the worker
emits the generic failure unconditionally), so at the final snapshot
completed + failed + skipped = 2 while the total is 1. -/
theorem C6_counterexample :
    get_statistics (managerRun
        (fun _ => ⟨[CbEvent.onFailed "boom"], ExecResult.ret false⟩) "t"
        qAdd1) = ⟨1, 0, 0, 0, 2, 2⟩ ∧
    ¬ ((get_statistics (managerRun
          (fun _ => ⟨[CbEvent.onFailed "boom"], ExecResult.ret false⟩) "t"
          qAdd1)).completed +
        (get_statistics (managerRun
          (fun _ => ⟨[CbEvent.onFailed "boom"], ExecResult.ret false⟩) "t"
          qAdd1)).failed +
        countStatus .skipped (managerRun
          (fun _ => ⟨[CbEvent.onFailed "boom"], ExecResult.ret false⟩) "t"
          qAdd1).jobs =
        (get_statistics (managerRun
          (fun _ => ⟨[CbEvent.onFailed "boom"], ExecResult.ret false⟩) "t"
          qAdd1)).total_jobs) := by
  constructor <;> decide

/-! ## Claim C7 -/

theorem add_multiple_jobs_length (fs : String → Bool)
    (eng : TranslationEngineType) :
    ∀ (pts : List (String × String)) (q : BatchTranslationQueue),
    (add_multiple_jobs fs eng q pts).1.jobs.length =
      q.jobs.length + (pts.filter (fun pt => fs pt.1)).length := by
  intro pts
  induction pts with
  | nil => intro q; simp [add_multiple_jobs]
  | cons pt rest ih =>
      intro q
      by_cases hex : fs pt.1
      · simp only [add_multiple_jobs, add_job, if_pos hex]
        rw [ih]
        simp [List.filter_cons, hex]
        omega
      · simp only [add_multiple_jobs, add_job, if_neg hex]
        rw [ih]
        simp [List.filter_cons, hex]

/-- C7: `add_job` raises the file-not-found error exactly when the path does
not resolve, and otherwise appends one new pending job and returns it;
`add_multiple_jobs` applies it to each input independently, skipping invalid
entries, so the queue gains one job per existing path — in particular
batch-adding three sources of which one does not exist yields exactly two
jobs. -/
theorem C7_add_validation :
    (∀ (fs : String → Bool) (q : BatchTranslationQueue) (path : String)
        (eng : TranslationEngineType) (ts : String),
      fs path = false →
        add_job fs q path eng ts =
          Except.error ("File not found: " ++ path)) ∧
    (∀ (fs : String → Bool) (q : BatchTranslationQueue) (path : String)
        (eng : TranslationEngineType) (ts : String),
      fs path = true →
        add_job fs q path eng ts =
          Except.ok ({ q with jobs := q.jobs ++ [mkJob path eng ts] },
            mkJob path eng ts) ∧
        (mkJob path eng ts).status = TranslationStatus.pending) ∧
    (∀ (fs : String → Bool) (eng : TranslationEngineType)
        (q : BatchTranslationQueue) (pts : List (String × String)),
      (add_multiple_jobs fs eng q pts).1.jobs.length =
        q.jobs.length + (pts.filter (fun pt => fs pt.1)).length) ∧
    (add_multiple_jobs (fun p => decide (p = "a.srt" ∨ p = "b.srt")) .whisper
        (emptyQueue 2)
        [("a.srt", "1"), ("missing.srt", "2"), ("b.srt", "3")]).1.jobs.length
      = 2 := by
  refine ⟨?_, ?_, ?_, ?_⟩
  · intro fs q path eng ts h
    rw [add_job, if_neg (by rw [h]; exact Bool.false_ne_true)]
  · intro fs q path eng ts h
    exact ⟨by rw [add_job, if_pos h], rfl⟩
  · intro fs eng q pts
    exact add_multiple_jobs_length fs eng pts q
  · decide

/-- Witness for C7 at a concrete two-file oracle. -/
theorem C7_add_validation_witness :
    ((fun p => decide (p = "a.srt" ∨ p = "b.srt")) "missing.srt" = false ∧
      add_job (fun p => decide (p = "a.srt" ∨ p = "b.srt")) (emptyQueue 2)
          "missing.srt" .whisper "2" =
        Except.error ("File not found: " ++ "missing.srt")) ∧
    ((fun p => decide (p = "a.srt" ∨ p = "b.srt")) "a.srt" = true ∧
      add_job (fun p => decide (p = "a.srt" ∨ p = "b.srt")) (emptyQueue 2)
          "a.srt" .whisper "1" =
        Except.ok ({ emptyQueue 2 with
            jobs := (emptyQueue 2).jobs ++ [mkJob "a.srt" .whisper "1"] },
          mkJob "a.srt" .whisper "1") ∧
      (mkJob "a.srt" .whisper "1").status = TranslationStatus.pending) :=
  ⟨⟨by decide,
    C7_add_validation.1 (fun p => decide (p = "a.srt" ∨ p = "b.srt"))
      (emptyQueue 2) "missing.srt" .whisper "2" (by decide)⟩,
   by decide,
   C7_add_validation.2.1 (fun p => decide (p = "a.srt" ∨ p = "b.srt"))
     (emptyQueue 2) "a.srt" .whisper "1" (by decide)⟩

/-! ## Claim C8 -/

/-- All jobs of the queue have progress within [0, 100]. -/
def ProgressBounded (q : BatchTranslationQueue) : Prop :=
  ∀ j ∈ q.jobs, 0 ≤ j.progress ∧ j.progress ≤ 100

theorem progressBounded_updateFirst (f : TranslationJob → TranslationJob)
    (id : String) (jobs : List TranslationJob)
    (hb : ∀ j ∈ jobs, 0 ≤ j.progress ∧ j.progress ≤ 100)
    (hf : ∀ j, 0 ≤ j.progress ∧ j.progress ≤ 100 →
      0 ≤ (f j).progress ∧ (f j).progress ≤ 100) :
    ∀ j' ∈ updateFirst f id jobs, 0 ≤ j'.progress ∧ j'.progress ≤ 100 := by
  intro j' hj'
  rcases mem_updateFirst f id jobs j' hj' with h | ⟨j, hj, hjeq⟩
  · exact hb j' h
  · rw [hjeq]
    exact hf j (hb j hj)

theorem clamp_bounds (p : Int) :
    0 ≤ min 100 (max 0 p) ∧ min 100 (max 0 p) ≤ 100 :=
  ⟨le_min (by norm_num) (le_max_left 0 p), min_le_left 100 _⟩

theorem progressBounded_applyOp (fs : String → Bool)
    (q : BatchTranslationQueue) (op : QOp) (hb : ProgressBounded q) :
    ProgressBounded (applyOp fs q op) := by
  cases op with
  | addOp path eng ts =>
      by_cases hex : fs path
      · simp only [applyOp, add_job, if_pos hex]
        intro j hj
        rcases List.mem_append.mp hj with h | h
        · exact hb j h
        · rw [List.mem_singleton.mp h]
          exact ⟨le_refl 0, by show (0 : Int) ≤ 100; norm_num⟩
      · simp only [applyOp, add_job, if_neg hex]
        exact hb
  | startOp id ts =>
      cases hm : firstMatch q.jobs id with
      | none => simpa [applyOp, mark_started, hm] using hb
      | some j₀ =>
          simp only [applyOp, mark_started, hm]
          exact progressBounded_updateFirst _ id q.jobs hb (fun j h => h)
  | progressOp id p m =>
      simp only [applyOp, update_progress]
      exact progressBounded_updateFirst _ id q.jobs hb
        (fun j _ => clamp_bounds p)
  | completeOp id out m ts =>
      cases hm : firstMatch q.jobs id with
      | none => simpa [applyOp, mark_completed, hm] using hb
      | some j₀ =>
          simp only [applyOp, mark_completed, hm]
          exact progressBounded_updateFirst _ id q.jobs hb
            (fun j _ => ⟨by norm_num, le_refl 100⟩)
  | failOp id m ts =>
      cases hm : firstMatch q.jobs id with
      | none => simpa [applyOp, mark_failed, hm] using hb
      | some j₀ =>
          simp only [applyOp, mark_failed, hm]
          exact progressBounded_updateFirst _ id q.jobs hb (fun j h => h)
  | skipOp id m ts =>
      cases hm : firstMatch q.jobs id with
      | none => simpa [applyOp, mark_skipped, hm] using hb
      | some j₀ =>
          simp only [applyOp, mark_skipped, hm]
          exact progressBounded_updateFirst _ id q.jobs hb (fun j h => h)
  | clearOp =>
      simpa [applyOp, clear_completed] using hb

theorem progressBounded_runOps (fs : String → Bool) :
    ∀ (ops : List QOp) (q : BatchTranslationQueue), ProgressBounded q →
      ProgressBounded (runOps fs q ops) := by
  intro ops
  induction ops with
  | nil => intro q hb; exact hb
  | cons op rest ih =>
      intro q hb
      exact ih (applyOp fs q op) (progressBounded_applyOp fs q op hb)

/-- C8: `update_progress` stores the supplied value clamped into [0, 100] —
150 is stored as 100 and −5 as 0 — and after any sequence of queue operations
starting from a fresh queue every job's progress lies within [0, 100]. -/
theorem C8_progress_clamped :
    (∀ (q : BatchTranslationQueue) (id : String) (p : Int) (m : String)
        (j₀ : TranslationJob),
      firstMatch q.jobs id = some j₀ →
        (firstMatch (update_progress q id p m).jobs id).map
            (fun j => j.progress) = some (min 100 (max 0 p))) ∧
    (min 100 (max 0 (150 : Int)) = 100 ∧ min 100 (max 0 (-5 : Int)) = 0) ∧
    (∀ (fs : String → Bool) (cap : Nat) (ops : List QOp),
      ∀ j ∈ (runOps fs (emptyQueue cap) ops).jobs,
        0 ≤ j.progress ∧ j.progress ≤ 100) := by
  refine ⟨?_, by constructor <;> decide, ?_⟩
  · intro q id p m j₀ hm
    have hid : j₀.job_id = id := firstMatch_id _ _ _ hm
    show (firstMatch (updateFirst _ id q.jobs) id).map (fun j => j.progress) = _
    rw [firstMatch_updateFirst_self _ id q.jobs j₀ hm hid]
    rfl
  · intro fs cap ops
    exact progressBounded_runOps fs ops (emptyQueue cap)
      (by intro j hj; simp [emptyQueue] at hj)

/-- Witness for C8 at a queue holding one job, with the claim's two sample
values. -/
theorem C8_progress_clamped_witness :
    (firstMatch qW.jobs "1" = some (mkJob "a.srt" .whisper "1") ∧
      (firstMatch (update_progress qW "1" 150 "m").jobs "1").map
          (fun j => j.progress) = some (min 100 (max 0 (150 : Int)))) ∧
    (firstMatch (update_progress qW "1" (-5) "m").jobs "1").map
        (fun j => j.progress) = some (min 100 (max 0 (-5 : Int))) ∧
    (∀ j ∈ (runOps fsAllTrue (emptyQueue 2)
        [QOp.addOp "a.srt" .whisper "1", QOp.progressOp "1" 150 ""]).jobs,
      0 ≤ j.progress ∧ j.progress ≤ 100) :=
  ⟨⟨by decide,
    C8_progress_clamped.1 qW "1" 150 "m" (mkJob "a.srt" .whisper "1")
      (by decide)⟩,
   C8_progress_clamped.1 qW "1" (-5) "m" (mkJob "a.srt" .whisper "1")
     (by decide),
   C8_progress_clamped.2.2 fsAllTrue 2
     [QOp.addOp "a.srt" .whisper "1", QOp.progressOp "1" 150 ""]⟩

/-! ## Claim C9 -/

/-- C9 counterexample: `job_id` is the `datetime.now().timestamp()` string, so
two adds observing the same clock reading produce two distinct job records —
different files — carrying the same id; the queue enforces no uniqueness. -/
theorem C9_counterexample :
    (add_multiple_jobs fsAllTrue .whisper (emptyQueue 2)
        [("a.srt", "1"), ("b.srt", "1")]).1.jobs.map (fun j => j.file_path) =
      ["a.srt", "b.srt"] ∧
    (add_multiple_jobs fsAllTrue .whisper (emptyQueue 2)
        [("a.srt", "1"), ("b.srt", "1")]).1.jobs.map (fun j => j.job_id) =
      ["1", "1"] ∧
    ¬ ((add_multiple_jobs fsAllTrue .whisper (emptyQueue 2)
        [("a.srt", "1"), ("b.srt", "1")]).1.jobs.map
          (fun j => j.job_id)).Nodup := by
  refine ⟨?_, ?_, ?_⟩ <;> decide

theorem add_multiple_jobs_ids (fs : String → Bool)
    (eng : TranslationEngineType) :
    ∀ (pts : List (String × String)) (q : BatchTranslationQueue),
    (add_multiple_jobs fs eng q pts).1.jobs.map (fun j => j.job_id) =
      q.jobs.map (fun j => j.job_id) ++
        (pts.filter (fun pt => fs pt.1)).map Prod.snd := by
  intro pts
  induction pts with
  | nil => intro q; simp [add_multiple_jobs]
  | cons pt rest ih =>
      intro q
      by_cases hex : fs pt.1
      · simp only [add_multiple_jobs, add_job, if_pos hex]
        rw [ih]
        simp [List.filter_cons, hex, mkJob]
      · simp only [add_multiple_jobs, add_job, if_neg hex]
        rw [ih]
        simp [List.filter_cons, hex]

/-- C9 amended: the ids assigned by a sequence of adds are the clock readings
taken at the successful adds, so they are pairwise distinct exactly when
those readings are; the code itself enforces no uniqueness. -/
theorem C9_ids_nodup_of_distinct_timestamps (fs : String → Bool)
    (eng : TranslationEngineType) (cap : Nat) (pts : List (String × String))
    (hts : (pts.map Prod.snd).Nodup) :
    ((add_multiple_jobs fs eng (emptyQueue cap) pts).1.jobs.map
        (fun j => j.job_id)).Nodup := by
  rw [add_multiple_jobs_ids fs eng pts (emptyQueue cap)]
  simp only [emptyQueue, List.map_nil, List.nil_append]
  have hsub : List.Sublist ((pts.filter (fun pt => fs pt.1)).map Prod.snd)
      (pts.map Prod.snd) :=
    (List.filter_sublist pts).map Prod.snd
  exact hts.sublist hsub

/-- Witness for C9's amended statement with two distinct clock readings. -/
theorem C9_ids_nodup_of_distinct_timestamps_witness :
    (([("a.srt", "1"), ("b.srt", "2")].map Prod.snd).Nodup : Prop) ∧
      ((add_multiple_jobs fsAllTrue .whisper (emptyQueue 2)
          [("a.srt", "1"), ("b.srt", "2")]).1.jobs.map
            (fun j => j.job_id)).Nodup :=
  ⟨by decide,
   C9_ids_nodup_of_distinct_timestamps fsAllTrue .whisper 2
     [("a.srt", "1"), ("b.srt", "2")] (by decide)⟩

/-! ## Claim C10 -/

/-- C10: calling `update_progress`, `mark_completed`, `mark_failed` or
`mark_skipped` with an empty message string leaves every job's message field
unchanged — the message is overwritten only when the supplied string is
non-empty (truthy). -/
theorem C10_empty_message_preserved (q : BatchTranslationQueue) (id : String)
    (p : Int) (out : Option String) (ts : String) :
    (update_progress q id p "").jobs.map (fun j => j.message) =
        q.jobs.map (fun j => j.message) ∧
    (mark_completed q id out "" ts).jobs.map (fun j => j.message) =
        q.jobs.map (fun j => j.message) ∧
    (mark_failed q id "" ts).jobs.map (fun j => j.message) =
        q.jobs.map (fun j => j.message) ∧
    (mark_skipped q id "" ts).jobs.map (fun j => j.message) =
        q.jobs.map (fun j => j.message) := by
  refine ⟨?_, ?_, ?_, ?_⟩
  · show (updateFirst _ id q.jobs).map (fun j => j.message) = _
    exact map_message_updateFirst _ id q.jobs (fun j => by simp)
  · cases hm : firstMatch q.jobs id with
    | none => simp [mark_completed, hm]
    | some j₀ =>
        have hjobs : (mark_completed q id out "" ts).jobs =
            updateFirst (fun j => { j with
              status := .completed
              progress := 100
              completed_at := some ts
              output_path := out
              message := if "" = "" then j.message else "" }) id q.jobs := by
          simp [mark_completed, hm]
        rw [hjobs]
        exact map_message_updateFirst _ id q.jobs (fun j => by simp)
  · cases hm : firstMatch q.jobs id with
    | none => simp [mark_failed, hm]
    | some j₀ =>
        have hjobs : (mark_failed q id "" ts).jobs =
            updateFirst (fun j => { j with
              status := .failed
              completed_at := some ts
              message := if "" = "" then j.message else "" }) id q.jobs := by
          simp [mark_failed, hm]
        rw [hjobs]
        exact map_message_updateFirst _ id q.jobs (fun j => by simp)
  · cases hm : firstMatch q.jobs id with
    | none => simp [mark_skipped, hm]
    | some j₀ =>
        have hjobs : (mark_skipped q id "" ts).jobs =
            updateFirst (fun j => { j with
              status := .skipped
              completed_at := some ts
              message := if "" = "" then j.message else "" }) id q.jobs := by
          simp [mark_skipped, hm]
        rw [hjobs]
        exact map_message_updateFirst _ id q.jobs (fun j => by simp)

end TranslationStudio
